import Mathlib

set_option maxRecDepth 4000

/-!
Verification of the documentation-synchronization pipeline implemented in
`tasks/build.py` of the `ap` repository: the usage-help normalization and
README splice performed by the `bin` task (lines 60-114), and the
ignore-pattern purge performed by the `docs` task (lines 168-196).

Text is modelled as `String` (with the underlying `List Char`), and line
separators as `'\n'`: the build runs on POSIX where `os.linesep = "\n"` and
text-mode I/O performs no newline translation, so `os.linesep.join`,
`str.splitlines` and `file.readlines` all work with plain `'\n'`.
-/

/-- Python whitespace characters, as stripped by `str.strip`, `str.rstrip`
and `str.lstrip` (ASCII: space, tab, newline, carriage return, vertical tab,
form feed). -/
def isPySpace (c : Char) : Bool :=
  c == ' ' || c == '\t' || c == '\n' || c == '\r' || c == '\x0b' || c == '\x0c'

/-- Python `str.lstrip()` on the character list. -/
def lstripL (l : List Char) : List Char := l.dropWhile isPySpace

/-- Python `str.rstrip()` on the character list. -/
def rstripL (l : List Char) : List Char := (l.reverse.dropWhile isPySpace).reverse

/-- Python `str.strip()` on the character list. -/
def stripL (l : List Char) : List Char := rstripL (lstripL l)

/-- Python `str.splitlines()` on the character list, for `'\n'` line
boundaries (the only boundary occurring in the modelled POSIX text files):
`""` gives `[]`, a trailing newline does not produce a final empty line. -/
def splitlinesL : List Char → List (List Char)
  | [] => []
  | c :: cs =>
    if c = '\n' then [] :: splitlinesL cs
    else
      match splitlinesL cs with
      | [] => [[c]]
      | p :: ps => (c :: p) :: ps

/-- Python `sep.join(parts)` on character lists. -/
def joinL (sep : List Char) : List (List Char) → List Char
  | [] => []
  | [x] => x
  | x :: y :: rest => x ++ sep ++ joinL sep (y :: rest)

/-- Python substring test `needle in hay` on character lists. -/
def isSubL (needle : List Char) : List Char → Bool
  | [] => needle.isEmpty
  | c :: rest => needle.isPrefixOf (c :: rest) || isSubL needle rest

/-- Python `str.split('] ')` (the separator used on the usage synopsis line in
`bin`, line 75 of `tasks/build.py`), specialised to that separator: leftmost,
non-overlapping splitting. -/
def splitBrSp : List Char → List (List Char)
  | [] => [[]]
  | ']' :: ' ' :: rest => [] :: splitBrSp rest
  | c :: rest =>
    match splitBrSp rest with
    | [] => [[c]]
    | p :: ps => (c :: p) :: ps

/-- Python `str.replace("rush", "rh")` (line 77 of `tasks/build.py`),
specialised to that pattern: leftmost, non-overlapping replacement. -/
def replaceRush : List Char → List Char
  | 'r' :: 'u' :: 's' :: 'h' :: rest => 'r' :: 'h' :: replaceRush rest
  | c :: rest => c :: replaceRush rest
  | [] => []

/-- Characters matched by `(?:\w|[-_])` in the flag regex of line 65: ASCII
word characters (Python 2 bytes regex) plus hyphen and underscore. -/
def flagChar (c : Char) : Bool := c.isAlphanum || c == '_' || c == '-'

/-- Fuel-driven scanner for `re.findall(r'--(?:\w|[-_])+', s)`: finds the
leftmost, non-overlapping, maximal matches of two dashes followed by one or
more flag characters.  The fuel only makes the recursion structural; it is
always called with enough fuel. -/
def findFlagsAux : Nat → List Char → List (List Char)
  | 0, _ => []
  | fuel + 1, l =>
    match l with
    | '-' :: '-' :: c :: rest =>
      if flagChar c then
        ('-' :: '-' :: c :: rest.takeWhile flagChar) ::
          findFlagsAux fuel (rest.dropWhile flagChar)
      else
        findFlagsAux fuel (c :: rest)
    | _ :: rest => findFlagsAux fuel rest
    | [] => []

/-- Matches of the flag regex `--(?:\w|[-_])+` in a character list. -/
def findFlagsL (l : List Char) : List (List Char) := findFlagsAux l.length l

/-- Python `str.strip()`. -/
def pyStrip (s : String) : String := ⟨stripL s.data⟩

/-- Python `str.rstrip()`. -/
def pyRstrip (s : String) : String := ⟨rstripL s.data⟩

/-- Python `str.lstrip()`. -/
def pyLstrip (s : String) : String := ⟨lstripL s.data⟩

/-- Python `str.splitlines()`. -/
def pySplitlines (s : String) : List String := (splitlinesL s.data).map String.mk

/-- Python `sep.join(parts)`. -/
def joinS (sep : String) (parts : List String) : String :=
  ⟨joinL sep.data (parts.map String.data)⟩

/-- Python `needle in hay` (substring containment). -/
def pyIn (needle hay : String) : Bool := isSubL needle.data hay.data

/-- Python `s.startswith(p)`. -/
def startsWithS (s p : String) : Bool := p.data.isPrefixOf s.data

/-!
The `bin` task, help normalization (`tasks/build.py` lines 60-81).
-/

/-- Line 60: `help_lines = binary.stdout.strip().splitlines()`. -/
def helpInitialLines (stdout : String) : List String :=
  pySplitlines (pyStrip stdout)

/-- Line 65: `flags = re.findall(r'--(?:\w|[-_])+', help_lines[0])`. -/
def extractFlags (syn : String) : List String :=
  (findFlagsL syn.data).map String.mk

/-- Lines 66-70: the predicate of the list comprehension keeping a description
line — `not '--' in line or any(flag in line for flag in flags)`. -/
def keepLine (flags : List String) (line : String) : Bool :=
  !(pyIn "--" line) || flags.any (fun f => pyIn f line)

/-- Lines 71-79: the usage synopsis reformatting
`']\n    '.join(help_lines[0].strip().split('] ')).replace("rush", "rh").splitlines()`. -/
def reformatSynopsis (syn : String) : List String :=
  pySplitlines ⟨replaceRush (joinL "]\n    ".data (splitBrSp (pyStrip syn).data))⟩

/-- Lines 62-79 applied to the initial help line list: drop leading lines
until one starts with `USAGE` (the `while` loop; `none` models the
`IndexError` raised when the list is exhausted), drop the `USAGE` header
itself, extract the flags from the new first line (`none` models the
`IndexError` when that line does not exist), filter the description lines,
and reformat the synopsis. -/
def normalizeLines (ls : List String) : Option (List String) :=
  match ls.dropWhile (fun l => !(startsWithS l "USAGE")) with
  | [] => none
  | _ :: rest =>
    match rest with
    | [] => none
    | syn :: descs =>
      some (reformatSynopsis syn ++ descs.filter (keepLine (extractFlags syn)))

/-- Line 80: the four-space indentation `'    ' + line` of every help line. -/
def indentHelp (ls : List String) : List String := ls.map (fun l => "    " ++ l)

/-- The normalized, indented help lines produced from the binary's raw stdout
(lines 60-80), or `none` when normalization raises. -/
def normalizeHelpLines (stdout : String) : Option (List String) :=
  (normalizeLines (helpInitialLines stdout)).map indentHelp

/-- Line 80: `help = os.linesep.join('    ' + line for line in help_lines)`. -/
def helpBlock (stdout : String) : Option String :=
  (normalizeHelpLines stdout).map (joinS "\n")

/-!
The `bin` task, README splice (`tasks/build.py` lines 84-114).
-/

/-- Line 86: `readme_lines = [line.rstrip() for line in f.readlines()]`. -/
def readmeLines (content : String) : List String :=
  (pySplitlines content).map pyRstrip

/-- The marker-scanning loop of lines 90-98, carrying the running index and
the `begin_idx` state: skip lines not starting with `'#'`; while `begin_idx`
is unset, set it at a line containing `"# Usage"`; once set, the next header
line becomes `end_idx` and the loop breaks. -/
def findMarkersAux (i : Nat) (b : Option Nat) : List String → Option Nat × Option Nat
  | [] => (b, none)
  | l :: ls =>
    if !(startsWithS l "#") then findMarkersAux (i + 1) b ls
    else
      match b with
      | none =>
        if pyIn "# Usage" l then findMarkersAux (i + 1) (some i) ls
        else findMarkersAux (i + 1) none ls
      | some bi => (some bi, some i)

/-- Lines 89-98: the located `(begin_idx, end_idx)` of the README usage
region. -/
def findMarkers (ls : List String) : Option Nat × Option Nat :=
  findMarkersAux 0 none ls

/-- Lines 99-114: the splice. Returns the exit code together with the file
content after the operation: when a marker is missing the task returns `2`
before any write, so the content is the one read; otherwise the file is
truncated and rewritten with the reassembled content of lines 105-111. -/
def spliceReadme (content help : String) : Nat × String :=
  let lines := readmeLines content
  match findMarkers lines with
  | (some b, some e) =>
    (0, joinS "\n" [joinS "\n" (lines.take (b + 1)), "", help, "",
                    joinS "\n" (lines.drop e), ""])
  | _ => (2, content)

/-!
The `docs` task, ignore-pattern purge (`tasks/build.py` lines 168-196).
-/

/-- Lines 174-177: the pattern lines kept from the `.docsignore` file —
`[line.rstrip() for line in f.readlines() if line.strip() and not
line.lstrip().startswith('#')]`.  The input is the file's line list
(readlines keeps the trailing newline, but `rstrip`, the truthiness of
`strip` and the first non-space character are unaffected by it, so the
newline-free line list is behaviourally identical). -/
def docsIgnorePatterns (ls : List String) : List String :=
  (ls.filter (fun l => !(pyStrip l == "") && !(startsWithS (pyLstrip l) "#"))).map pyRstrip

/-!
Specification-side definitions for the marker scan, used to state the
amended claim C3: a header boundary candidate is a line starting with `'#'`
(as its very first character); `begin` is the first candidate containing
`"# Usage"`, `end` the first candidate strictly after `begin`.
-/

/-- A line the marker scan treats as a header boundary candidate. -/
def isHeaderLine (l : String) : Bool := startsWithS l "#"

/-- A header boundary candidate containing the usage-section title. -/
def isUsageHeader (l : String) : Bool := startsWithS l "#" && pyIn "# Usage" l

/-- Index (counting from `i`) of the first element satisfying `p`. -/
def firstIdxFrom (p : String → Bool) (i : Nat) : List String → Option Nat
  | [] => none
  | l :: ls => if p l then some i else firstIdxFrom p (i + 1) ls

/-- Amended-claim `begin` marker: the index of the first header boundary
candidate containing the usage title. -/
def specBegin (ls : List String) : Option Nat := firstIdxFrom isUsageHeader 0 ls

/-- Amended-claim `end` marker: the index of the first header boundary
candidate strictly after `begin`. -/
def specEnd (ls : List String) : Option Nat :=
  match specBegin ls with
  | none => none
  | some b => firstIdxFrom isHeaderLine (b + 1) (ls.drop (b + 1))

/-!
Model of the filesystem purge of the `docs` task (lines 184-196).  The glob
resolution itself is performed by the external `pathlib` primitive
(`output_dir.glob(pattern)`), which is not part of this repository; it is
modelled here with its standard semantics: the pattern is split on `/` into
segments, each segment is matched against one path component with `fnmatch`
wildcards (`*`, `?`, literal characters; character classes are not exercised
by any claim and are omitted), and a `**` segment matches any number of
components. -/

/-- Filesystem entry below the output directory: its relative path as a
segment list and whether it is a directory. -/
structure FsEntry where
  path : List String
  isDir : Bool
deriving DecidableEq, Repr

/-- Fuel-driven `fnmatch` of one glob segment against one path component
(`*`, `?` and literal characters).  The fuel only makes the recursion
structural; enough fuel is always supplied. -/
def fnmatchFuel : Nat → List Char → List Char → Bool
  | 0, p, s => p.isEmpty && s.isEmpty
  | fuel + 1, p, s =>
    match p, s with
    | [], [] => true
    | [], _ :: _ => false
    | '*' :: ps, s =>
      fnmatchFuel fuel ps s ||
        (match s with
         | [] => false
         | _ :: s2 => fnmatchFuel fuel ('*' :: ps) s2)
    | '?' :: ps, _ :: s2 => fnmatchFuel fuel ps s2
    | '?' :: _, [] => false
    | c :: ps, d :: s2 => c == d && fnmatchFuel fuel ps s2
    | _ :: _, [] => false

/-- Glob segment match against one path component. -/
def fnmatchL (p s : List Char) : Bool := fnmatchFuel (p.length + s.length + 1) p s

/-- Fuel-driven segment-list glob match; a `**` segment matches any number of
path components. -/
def globSegsFuel : Nat → List (List Char) → List (List Char) → Bool
  | 0, p, s => p.isEmpty && s.isEmpty
  | fuel + 1, p, s =>
    match p, s with
    | [], [] => true
    | [], _ :: _ => false
    | pseg :: ps, s =>
      if pseg = ['*', '*'] then
        globSegsFuel fuel ps s ||
          (match s with
           | [] => false
           | _ :: s2 => globSegsFuel fuel (pseg :: ps) s2)
      else
        match s with
        | [] => false
        | sseg :: s2 => fnmatchL pseg sseg && globSegsFuel fuel ps s2

/-- Python `str.split('/')` used on glob patterns. -/
def splitSlash : List Char → List (List Char)
  | [] => [[]]
  | c :: rest =>
    if c = '/' then [] :: splitSlash rest
    else
      match splitSlash rest with
      | [] => [[c]]
      | p :: ps => (c :: p) :: ps

/-- Whether `output_dir.glob(pattern)` yields the entry at the given relative
path (modelled external primitive, see above). -/
def globMatch (pattern : String) (path : List String) : Bool :=
  let psegs := splitSlash pattern.data
  let ssegs := path.map String.data
  globSegsFuel (psegs.length + ssegs.length + 1) psegs ssegs

/-- Lines 184-185: the matches of one pattern against the output tree. -/
def resolveGlob (fs : List FsEntry) (pattern : String) : List FsEntry :=
  fs.filter (fun x => globMatch pattern x.path)

/-- Lines 188-196: deletion of one matched path — `shutil.rmtree` (the
directory and everything below it) when it is a directory, `path.unlink()`
(that single file) otherwise. -/
def deletePath (fs : List FsEntry) (m : FsEntry) : List FsEntry :=
  if m.isDir then fs.filter (fun x => !(m.path.isPrefixOf x.path))
  else fs.filter (fun x => !(m.path == x.path))

/-- Resolution and deletion for one retained pattern.  The source iterates a
lazy `chain(imap(glob, ...))`, so each pattern's glob runs against the tree
as already modified by the previous patterns' deletions; this is modelled by
resolving and deleting pattern by pattern. -/
def purgeOne (fs : List FsEntry) (pattern : String) : List FsEntry :=
  (resolveGlob fs pattern).foldl deletePath fs

/-- The whole purge loop over the retained patterns. -/
def purge (fs : List FsEntry) (patterns : List String) : List FsEntry :=
  patterns.foldl purgeOne fs

/-!
Generic helper lemmas.
-/

theorem isPrefixOf_true_iff {α : Type} [BEq α] [LawfulBEq α] (l₁ l₂ : List α) :
    l₁.isPrefixOf l₂ = true ↔ ∃ t, l₁ ++ t = l₂ := by
  induction l₁ generalizing l₂ with
  | nil => simp [List.isPrefixOf]
  | cons a l ih =>
    cases l₂ with
    | nil => simp [List.isPrefixOf]
    | cons b l₂ =>
      simp only [List.isPrefixOf, Bool.and_eq_true, beq_iff_eq, ih, List.cons_append,
        List.cons.injEq]
      constructor
      · rintro ⟨rfl, t, rfl⟩; exact ⟨t, rfl, rfl⟩
      · rintro ⟨t, rfl, rfl⟩; exact ⟨rfl, t, rfl⟩

theorem isPrefixOf_self {α : Type} [BEq α] [LawfulBEq α] (l : List α) :
    l.isPrefixOf l = true :=
  (isPrefixOf_true_iff l l).2 ⟨[], List.append_nil l⟩

theorem isPrefixOf_trans {α : Type} [BEq α] [LawfulBEq α] {l₁ l₂ l₃ : List α}
    (h₁ : l₁.isPrefixOf l₂ = true) (h₂ : l₂.isPrefixOf l₃ = true) :
    l₁.isPrefixOf l₃ = true := by
  obtain ⟨t, rfl⟩ := (isPrefixOf_true_iff _ _).1 h₁
  obtain ⟨u, rfl⟩ := (isPrefixOf_true_iff _ _).1 h₂
  exact (isPrefixOf_true_iff _ _).2 ⟨t ++ u, (List.append_assoc _ _ _).symm⟩

theorem head?_dropWhile_false {α : Type} (p : α → Bool) (l : List α) {x : α}
    (h : (l.dropWhile p).head? = some x) : p x = false := by
  have := List.head?_dropWhile_not p l
  rw [h] at this
  exact this

/-!
Lemmas about `splitlinesL` and `joinL`.
-/

theorem splitlinesL_cons_nl (cs : List Char) :
    splitlinesL ('\n' :: cs) = [] :: splitlinesL cs := by
  simp [splitlinesL]

theorem splitlinesL_cons {c : Char} (cs : List Char) (hc : c ≠ '\n') :
    splitlinesL (c :: cs) =
      match splitlinesL cs with
      | [] => [[c]]
      | p :: ps => (c :: p) :: ps := by
  simp [splitlinesL, hc]

theorem splitlinesL_eq_nil_iff (l : List Char) : splitlinesL l = [] ↔ l = [] := by
  constructor
  · intro h
    cases l with
    | nil => rfl
    | cons c cs =>
      by_cases hc : c = '\n'
      · subst hc; rw [splitlinesL_cons_nl] at h; cases h
      · rw [splitlinesL_cons cs hc] at h
        cases hsp : splitlinesL cs <;> rw [hsp] at h <;> cases h
  · intro h; subst h; rfl

theorem mem_splitlinesL_no_nl : ∀ {l p : List Char}, p ∈ splitlinesL l → '\n' ∉ p := by
  intro l
  induction l with
  | nil => intro p hp; cases hp
  | cons c cs ih =>
    intro p hp
    by_cases hc : c = '\n'
    · subst hc; rw [splitlinesL_cons_nl] at hp
      rcases List.mem_cons.1 hp with h | h
      · subst h; exact List.not_mem_nil _
      · exact ih h
    · rw [splitlinesL_cons cs hc] at hp
      cases hsp : splitlinesL cs with
      | nil =>
        rw [hsp] at hp
        rcases List.mem_cons.1 hp with h | h
        · subst h
          intro hmem
          rcases List.mem_singleton.1 hmem with h
          exact hc h.symm
        · cases h
      | cons q qs =>
        rw [hsp] at hp
        rcases List.mem_cons.1 hp with h | h
        · subst h
          intro hmem
          rcases List.mem_cons.1 hmem with h | h
          · exact hc h.symm
          · exact ih (hsp ▸ List.mem_cons_self q qs) h
        · exact ih (hsp ▸ List.mem_cons_of_mem q h)

theorem splitlinesL_append_nl : ∀ {x : List Char}, '\n' ∉ x → ∀ (r : List Char),
    splitlinesL (x ++ '\n' :: r) = x :: splitlinesL r := by
  intro x
  induction x with
  | nil => intro _ r; rw [List.nil_append, splitlinesL_cons_nl]
  | cons c cs ih =>
    intro hx r
    have hc : c ≠ '\n' := fun h => hx (h ▸ List.mem_cons_self c cs)
    have hx' : '\n' ∉ cs := fun h => hx (List.mem_cons_of_mem c h)
    rw [List.cons_append, splitlinesL_cons _ hc, ih hx' r]

theorem joinL_cons_cons (sep x y : List Char) (rest : List (List Char)) :
    joinL sep (x :: y :: rest) = x ++ sep ++ joinL sep (y :: rest) := rfl

theorem splitlinesL_joinL : ∀ {ls : List (List Char)}, ls ≠ [] →
    (∀ p ∈ ls, '\n' ∉ p) → splitlinesL (joinL ['\n'] ls ++ ['\n']) = ls := by
  intro ls
  induction ls with
  | nil => intro h; cases h rfl
  | cons x xs ih =>
    intro _ hnl
    cases xs with
    | nil =>
      have hx : '\n' ∉ x := hnl x (List.mem_cons_self x [])
      have := splitlinesL_append_nl hx []
      simpa [joinL] using this
    | cons y ys =>
      have hx : '\n' ∉ x := hnl x (List.mem_cons_self x (y :: ys))
      have hnl' : ∀ p ∈ y :: ys, '\n' ∉ p := fun p hp => hnl p (List.mem_cons_of_mem x hp)
      rw [joinL_cons_cons]
      have hre : (x ++ ['\n'] ++ joinL ['\n'] (y :: ys)) ++ ['\n'] =
          x ++ '\n' :: (joinL ['\n'] (y :: ys) ++ ['\n']) := by
        simp [List.append_assoc]
      rw [hre, splitlinesL_append_nl hx, ih (by simp) hnl']

theorem joinL_splitlinesL : ∀ (l : List Char), l ≠ [] → l.getLast? ≠ some '\n' →
    joinL ['\n'] (splitlinesL l) = l := by
  intro l
  induction l with
  | nil => intro h; cases h rfl
  | cons c cs ih =>
    intro _ hlast
    cases cs with
    | nil =>
      have hc : c ≠ '\n' := by simpa using hlast
      rw [splitlinesL_cons [] hc]
      simp [splitlinesL, joinL]
    | cons d ds =>
      have hlast' : (d :: ds).getLast? ≠ some '\n' := by
        rwa [List.getLast?_cons_cons] at hlast
      have hjoin : joinL ['\n'] (splitlinesL (d :: ds)) = d :: ds :=
        ih (by simp) hlast'
      obtain ⟨p, ps, hp⟩ : ∃ p ps, splitlinesL (d :: ds) = p :: ps := by
        cases h : splitlinesL (d :: ds) with
        | nil => exact absurd ((splitlinesL_eq_nil_iff _).1 h) (by simp)
        | cons p ps => exact ⟨p, ps, rfl⟩
      by_cases hc : c = '\n'
      · subst hc
        rw [splitlinesL_cons_nl, hp, joinL_cons_cons]
        rw [hp] at hjoin
        rw [hjoin]
        simp
      · rw [splitlinesL_cons _ hc, hp]
        rw [hp] at hjoin
        cases ps with
        | nil =>
          simp only [joinL] at hjoin ⊢
          rw [hjoin]
        | cons q qs =>
          rw [joinL_cons_cons] at hjoin ⊢
          rw [List.cons_append, List.cons_append, hjoin]

theorem joinL_append (sep : List Char) : ∀ (xs ys : List (List Char)), xs ≠ [] → ys ≠ [] →
    joinL sep (xs ++ ys) = joinL sep xs ++ sep ++ joinL sep ys := by
  intro xs
  induction xs with
  | nil => intro ys h; cases h rfl
  | cons x xs ih =>
    intro ys _ hys
    cases xs with
    | nil =>
      cases ys with
      | nil => cases hys rfl
      | cons y ys => simp [joinL_cons_cons, joinL]
    | cons x2 xs2 =>
      have hrec := ih ys (by simp) hys
      have h1 : (x :: x2 :: xs2) ++ ys = x :: x2 :: (xs2 ++ ys) := rfl
      rw [h1, joinL_cons_cons]
      have h2 : (x2 :: (xs2 ++ ys)) = (x2 :: xs2) ++ ys := rfl
      rw [h2, hrec, joinL_cons_cons]
      simp [List.append_assoc]

theorem getLast?_splitlinesL : ∀ (l : List Char) (p : List Char),
    l.getLast? ≠ some '\n' → (splitlinesL l).getLast? = some p →
    p.getLast? = l.getLast? := by
  intro l
  induction l with
  | nil => intro p _ h; cases h
  | cons c cs ih =>
    intro p hlast hsp
    cases cs with
    | nil =>
      have hc : c ≠ '\n' := by simpa using hlast
      rw [splitlinesL_cons [] hc] at hsp
      simp only [splitlinesL] at hsp
      simp only [List.getLast?_singleton, Option.some.injEq] at hsp
      subst hsp
      rfl
    | cons d ds =>
      have hlast' : (d :: ds).getLast? ≠ some '\n' := by
        rwa [List.getLast?_cons_cons] at hlast
      have hlcc : (c :: d :: ds).getLast? = (d :: ds).getLast? :=
        List.getLast?_cons_cons
      obtain ⟨q, qs, hq⟩ : ∃ q qs, splitlinesL (d :: ds) = q :: qs := by
        cases h : splitlinesL (d :: ds) with
        | nil => exact absurd ((splitlinesL_eq_nil_iff _).1 h) (by simp)
        | cons q qs => exact ⟨q, qs, rfl⟩
      by_cases hc : c = '\n'
      · subst hc
        rw [splitlinesL_cons_nl, hq, List.getLast?_cons_cons] at hsp
        rw [hlcc]
        exact ih p hlast' (by rw [hq]; exact hsp)
      · rw [splitlinesL_cons _ hc, hq] at hsp
        cases qs with
        | nil =>
          simp only [List.getLast?_singleton, Option.some.injEq] at hsp
          subst hsp
          have hql : q.getLast? = (d :: ds).getLast? :=
            ih q hlast' (by rw [hq]; rfl)
          have hqne : q ≠ [] := by
            intro h
            subst h
            simp only [List.getLast?_nil] at hql
            exact (by simp : (d :: ds).getLast? ≠ none) hql.symm
          rw [hlcc, ← hql]
          cases q with
          | nil => cases hqne rfl
          | cons q0 qt => exact List.getLast?_cons_cons
        | cons r rs =>
          rw [List.getLast?_cons_cons] at hsp
          rw [hlcc]
          exact ih p hlast' (by rw [hq, List.getLast?_cons_cons]; exact hsp)

/-!
Lemmas about the strip primitives.
-/

theorem dropWhile_dropWhile {α : Type} (p : α → Bool) :
    ∀ (l : List α), (l.dropWhile p).dropWhile p = l.dropWhile p := by
  intro l
  induction l with
  | nil => rfl
  | cons a t ih =>
    by_cases hp : p a
    · rw [List.dropWhile_cons_of_pos hp, ih]
    · rw [List.dropWhile_cons_of_neg hp, List.dropWhile_cons_of_neg hp]

theorem rstripL_append (l : List Char) :
    ∃ t, rstripL l ++ t = l ∧ ∀ c ∈ t, isPySpace c = true := by
  refine ⟨(l.reverse.takeWhile isPySpace).reverse, ?_, ?_⟩
  · rw [rstripL]
    rw [← List.reverse_append, List.takeWhile_append_dropWhile, List.reverse_reverse]
  · intro c hc
    rw [List.mem_reverse] at hc
    exact List.mem_takeWhile_imp hc

theorem rstripL_idem (l : List Char) : rstripL (rstripL l) = rstripL l := by
  rw [rstripL, rstripL, List.reverse_reverse, dropWhile_dropWhile]

theorem getLast?_rstripL_not_space {l : List Char} {c : Char}
    (h : (rstripL l).getLast? = some c) : isPySpace c = false := by
  rw [rstripL, List.getLast?_reverse] at h
  exact head?_dropWhile_false _ _ h

theorem rstripL_eq_self {l : List Char} {c : Char} (hl : l.getLast? = some c)
    (hc : isPySpace c = false) : rstripL l = l := by
  have hrev : l.reverse.head? = some c := by rw [List.head?_reverse, hl]
  cases hr : l.reverse with
  | nil => rw [hr] at hrev; cases hrev
  | cons d t =>
    rw [hr] at hrev
    have hd : d = c := by simpa using hrev
    subst hd
    rw [rstripL, hr, List.dropWhile_cons_of_neg (by simp [hc]), ← hr,
      List.reverse_reverse]

theorem head?_rstripL {l : List Char} {c : Char} (h : (rstripL l).head? = some c) :
    l.head? = some c := by
  obtain ⟨t, ht, -⟩ := rstripL_append l
  cases hr : rstripL l with
  | nil => rw [hr] at h; cases h
  | cons d r =>
    rw [hr] at h
    rw [hr] at ht
    rw [← ht]
    simpa using h

theorem mem_rstripL {l : List Char} {a : Char} (h : a ∈ rstripL l) : a ∈ l := by
  obtain ⟨t, ht, -⟩ := rstripL_append l
  rw [← ht]
  exact List.mem_append_left t h

theorem getLast?_stripL_not_space {l : List Char} {c : Char}
    (h : (stripL l).getLast? = some c) : isPySpace c = false :=
  getLast?_rstripL_not_space h

theorem head?_stripL {l : List Char} (h : stripL l ≠ []) :
    (stripL l).head? = (lstripL l).head? := by
  obtain ⟨t, ht, -⟩ := rstripL_append (lstripL l)
  have hst : stripL l = rstripL (lstripL l) := rfl
  cases hr : rstripL (lstripL l) with
  | nil => rw [hst, hr] at h; cases h rfl
  | cons d r =>
    rw [hst, hr]
    rw [hr] at ht
    rw [← ht]
    simp

theorem startsHash_iff (l : List Char) :
    (['#'] : List Char).isPrefixOf l = true ↔ l.head? = some '#' := by
  cases l with
  | nil => simp [List.isPrefixOf]
  | cons c t =>
    simp only [List.isPrefixOf, List.head?_cons, Option.some.injEq, Bool.and_eq_true,
      beq_iff_eq]
    constructor
    · rintro ⟨rfl, -⟩; rfl
    · rintro rfl; exact ⟨rfl, by simp [List.isPrefixOf]⟩

/-!
Lemmas about `firstIdxFrom` and the refinement of the marker scan.
-/

theorem firstIdxFrom_le {p : String → Bool} :
    ∀ {ls : List String} {i j : Nat}, firstIdxFrom p i ls = some j → i ≤ j := by
  intro ls
  induction ls with
  | nil => intro i j h; cases h
  | cons l ls ih =>
    intro i j h
    by_cases hp : p l
    · simp [firstIdxFrom, hp] at h
      omega
    · simp only [firstIdxFrom, if_neg hp] at h
      have := ih h
      omega

theorem firstIdxFrom_lt {p : String → Bool} :
    ∀ {ls : List String} {i j : Nat}, firstIdxFrom p i ls = some j →
      j < i + ls.length := by
  intro ls
  induction ls with
  | nil => intro i j h; cases h
  | cons l ls ih =>
    intro i j h
    by_cases hp : p l
    · simp [firstIdxFrom, hp] at h
      simp [← h]
    · simp only [firstIdxFrom, if_neg hp] at h
      have := ih h
      simp only [List.length_cons]
      omega

theorem firstIdxFrom_eq_none_iff {p : String → Bool} :
    ∀ {ls : List String} {i : Nat},
      firstIdxFrom p i ls = none ↔ ∀ x ∈ ls, p x = false := by
  intro ls
  induction ls with
  | nil => intro i; simp [firstIdxFrom]
  | cons l ls ih =>
    intro i
    by_cases hp : p l
    · simp [firstIdxFrom, hp]
    · simp only [firstIdxFrom, if_neg hp, ih, List.mem_cons]
      constructor
      · intro h x hx
        rcases hx with rfl | hx
        · simpa using hp
        · exact h x hx
      · intro h x hx
        exact h x (Or.inr hx)

theorem firstIdxFrom_append_all_false {p : String → Bool} :
    ∀ {xs : List String} (ys : List String) (i : Nat),
      (∀ x ∈ xs, p x = false) →
      firstIdxFrom p i (xs ++ ys) = firstIdxFrom p (i + xs.length) ys := by
  intro xs
  induction xs with
  | nil => intro ys i _; simp
  | cons x xs ih =>
    intro ys i h
    have hx : p x = false := h x (List.mem_cons_self x xs)
    have hxs : ∀ y ∈ xs, p y = false := fun y hy => h y (List.mem_cons_of_mem x hy)
    have harith : i + 1 + xs.length = i + (x :: xs).length := by
      simp only [List.length_cons]
      omega
    rw [List.cons_append, firstIdxFrom, if_neg (by simp [hx]), ih ys (i + 1) hxs, harith]

theorem firstIdxFrom_some_iff {p : String → Bool} :
    ∀ {ls : List String} {i j : Nat},
      firstIdxFrom p i ls = some j ↔
        ∃ pre x suf, ls = pre ++ x :: suf ∧ j = i + pre.length ∧
          (∀ y ∈ pre, p y = false) ∧ p x = true := by
  intro ls
  induction ls with
  | nil =>
    intro i j
    constructor
    · intro h; cases h
    · rintro ⟨pre, x, suf, h, -⟩; cases pre <;> cases h
  | cons l ls ih =>
    intro i j
    by_cases hp : p l
    · simp only [firstIdxFrom, if_pos hp]
      constructor
      · intro h
        refine ⟨[], l, ls, rfl, ?_, by simp, hp⟩
        simpa using h.symm
      · rintro ⟨pre, x, suf, heq, hj, hpre, hx⟩
        cases pre with
        | nil =>
          simp only [List.nil_append, List.cons.injEq] at heq
          simp [hj]
        | cons q qs =>
          simp only [List.cons_append, List.cons.injEq] at heq
          exact absurd (heq.1 ▸ hp) (by simp [hpre q (List.mem_cons_self q qs)])
    · simp only [firstIdxFrom, if_neg hp, ih]
      constructor
      · rintro ⟨pre, x, suf, heq, hj, hpre, hx⟩
        refine ⟨l :: pre, x, suf, by simp [heq], by simp; omega, ?_, hx⟩
        intro y hy
        rcases List.mem_cons.1 hy with rfl | hy
        · simpa using hp
        · exact hpre y hy
      · rintro ⟨pre, x, suf, heq, hj, hpre, hx⟩
        cases pre with
        | nil =>
          simp only [List.nil_append, List.cons.injEq] at heq
          exact absurd (heq.1 ▸ hp) (by simp [hx])
        | cons q qs =>
          simp only [List.cons_append, List.cons.injEq] at heq
          refine ⟨qs, x, suf, heq.2, ?_, ?_, hx⟩
          · simp only [List.length_cons] at hj
            omega
          · intro y hy
            exact hpre y (List.mem_cons_of_mem q hy)

theorem findMarkersAux_some_state : ∀ (ls : List String) (i bi : Nat),
    findMarkersAux i (some bi) ls = (some bi, firstIdxFrom isHeaderLine i ls) := by
  intro ls
  induction ls with
  | nil => intro i bi; rfl
  | cons l ls ih =>
    intro i bi
    by_cases h : startsWithS l "#"
    · simp [findMarkersAux, h, firstIdxFrom, isHeaderLine]
    · simp [findMarkersAux, h, firstIdxFrom, isHeaderLine, ih]

theorem findMarkersAux_none_of_none : ∀ (ls : List String) (i : Nat),
    firstIdxFrom isUsageHeader i ls = none →
    findMarkersAux i none ls = (none, none) := by
  intro ls
  induction ls with
  | nil => intro i _; rfl
  | cons l ls ih =>
    intro i h
    by_cases hh : startsWithS l "#"
    · by_cases hu : pyIn "# Usage" l
      · exfalso
        simp [firstIdxFrom, isUsageHeader, hh, hu] at h
      · have hul : isUsageHeader l = false := by simp [isUsageHeader, hh, hu]
        simp only [firstIdxFrom, hul, Bool.false_eq_true, if_false] at h
        simp [findMarkersAux, hh, hu, ih _ h]
    · have hul : isUsageHeader l = false := by simp [isUsageHeader, hh]
      simp only [firstIdxFrom, hul, Bool.false_eq_true, if_false] at h
      simp [findMarkersAux, hh, ih _ h]

theorem findMarkersAux_none_of_some : ∀ (ls : List String) (i b : Nat),
    firstIdxFrom isUsageHeader i ls = some b →
    findMarkersAux i none ls =
      (some b, firstIdxFrom isHeaderLine (b + 1) (ls.drop (b + 1 - i))) := by
  intro ls
  induction ls with
  | nil => intro i b h; cases h
  | cons l ls ih =>
    intro i b h
    by_cases hh : startsWithS l "#"
    · by_cases hu : pyIn "# Usage" l
      · have hul : isUsageHeader l = true := by simp [isUsageHeader, hh, hu]
        have hb : b = i := by
          simp [firstIdxFrom, hul] at h
          omega
        subst hb
        have hdrop : (l :: ls).drop (b + 1 - b) = ls := by
          have : b + 1 - b = 1 := by omega
          simp [this]
        simp [findMarkersAux, hh, hu, findMarkersAux_some_state, hdrop]
      · have hul : isUsageHeader l = false := by simp [isUsageHeader, hh, hu]
        simp only [firstIdxFrom, hul, Bool.false_eq_true, if_false] at h
        have hge : i + 1 ≤ b := firstIdxFrom_le h
        have hdrop : (l :: ls).drop (b + 1 - i) = ls.drop (b + 1 - (i + 1)) := by
          have heq : b + 1 - i = (b + 1 - (i + 1)) + 1 := by omega
          rw [heq, List.drop_succ_cons]
        simp [findMarkersAux, hh, hu, ih _ _ h, hdrop]
    · have hul : isUsageHeader l = false := by simp [isUsageHeader, hh]
      simp only [firstIdxFrom, hul, Bool.false_eq_true, if_false] at h
      have hge : i + 1 ≤ b := firstIdxFrom_le h
      have hdrop : (l :: ls).drop (b + 1 - i) = ls.drop (b + 1 - (i + 1)) := by
        have heq : b + 1 - i = (b + 1 - (i + 1)) + 1 := by omega
        rw [heq, List.drop_succ_cons]
      simp [findMarkersAux, hh, ih _ _ h, hdrop]

theorem findMarkers_eq_spec_markers (ls : List String) :
    findMarkers ls = (specBegin ls, specEnd ls) := by
  rw [findMarkers, specEnd, specBegin]
  cases h : firstIdxFrom isUsageHeader 0 ls with
  | none => rw [findMarkersAux_none_of_none ls 0 h]
  | some b =>
    rw [findMarkersAux_none_of_some ls 0 b h]
    simp

/-!
String-level helper lemmas and facts about the README line list.
-/

theorem map_data_map_mk (ls : List (List Char)) :
    (ls.map String.mk).map String.data = ls := by
  rw [List.map_map, show String.data ∘ String.mk = id from rfl]
  exact List.map_id ls

theorem map_mk_map_data (ss : List String) :
    (ss.map String.data).map String.mk = ss := by
  rw [List.map_map, show String.mk ∘ String.data = id from rfl]
  exact List.map_id ss

theorem string_ne_empty_iff (s : String) : s ≠ "" ↔ s.data ≠ [] := by
  constructor
  · intro h hd
    exact h (by rw [show s = (⟨s.data⟩ : String) from rfl, hd])
  · intro h hs
    exact h (by rw [hs])

theorem readmeLines_no_nl (content : String) :
    ∀ l ∈ readmeLines content, '\n' ∉ l.data := by
  intro l hl
  rw [readmeLines] at hl
  obtain ⟨l₀, hl₀, rfl⟩ := List.mem_map.1 hl
  obtain ⟨cl, hcl, rfl⟩ := List.mem_map.1 hl₀
  intro hmem
  exact mem_splitlinesL_no_nl hcl (mem_rstripL hmem)

theorem readmeLines_rstrip_stable (content : String) :
    ∀ l ∈ readmeLines content, pyRstrip l = l := by
  intro l hl
  rw [readmeLines] at hl
  obtain ⟨l₀, hl₀, rfl⟩ := List.mem_map.1 hl
  show (⟨rstripL (rstripL l₀.data)⟩ : String) = ⟨rstripL l₀.data⟩
  rw [rstripL_idem]

theorem splitlinesL_ne_nil {l : List Char} (h : l ≠ []) : splitlinesL l ≠ [] := by
  intro hs
  exact h ((splitlinesL_eq_nil_iff l).1 hs)

theorem splitlinesL_reassembly (Td Dd : List (List Char)) (Hd : List Char)
    (hT : Td ≠ []) (hD : Dd ≠ []) (hH : Hd ≠ []) (hHl : Hd.getLast? ≠ some '\n')
    (hTn : ∀ p ∈ Td, '\n' ∉ p) (hDn : ∀ p ∈ Dd, '\n' ∉ p) :
    splitlinesL (joinL ['\n'] [joinL ['\n'] Td, [], Hd, [], joinL ['\n'] Dd, []]) =
      Td ++ [[]] ++ splitlinesL Hd ++ [[]] ++ Dd := by
  have hSH : splitlinesL Hd ≠ [] := splitlinesL_ne_nil hH
  have hjoinH : joinL ['\n'] (splitlinesL Hd) = Hd := joinL_splitlinesL Hd hH hHl
  have hexp : joinL ['\n'] [joinL ['\n'] Td, [], Hd, [], joinL ['\n'] Dd, []] =
      joinL ['\n'] Td ++ ['\n'] ++ ([] ++ ['\n'] ++ (Hd ++ ['\n'] ++
        ([] ++ ['\n'] ++ (joinL ['\n'] Dd ++ ['\n'] ++ [])))) := rfl
  have hL : Td ++ [[]] ++ splitlinesL Hd ++ [[]] ++ Dd =
      Td ++ ([[]] ++ (splitlinesL Hd ++ ([[]] ++ Dd))) := by
    simp [List.append_assoc]
  have j4 : joinL ['\n'] ([[]] ++ Dd) = [] ++ ['\n'] ++ joinL ['\n'] Dd :=
    joinL_append ['\n'] [[]] Dd (by simp) hD
  have j3 : joinL ['\n'] (splitlinesL Hd ++ ([[]] ++ Dd)) =
      Hd ++ ['\n'] ++ ([] ++ ['\n'] ++ joinL ['\n'] Dd) := by
    rw [joinL_append ['\n'] _ _ hSH (by simp), hjoinH, j4]
  have j2 : joinL ['\n'] ([[]] ++ (splitlinesL Hd ++ ([[]] ++ Dd))) =
      [] ++ ['\n'] ++ (Hd ++ ['\n'] ++ ([] ++ ['\n'] ++ joinL ['\n'] Dd)) := by
    rw [joinL_append ['\n'] [[]] _ (by simp) (by simp), joinL, j3]
  have j1 : joinL ['\n'] (Td ++ ([[]] ++ (splitlinesL Hd ++ ([[]] ++ Dd)))) =
      joinL ['\n'] Td ++ ['\n'] ++
        ([] ++ ['\n'] ++ (Hd ++ ['\n'] ++ ([] ++ ['\n'] ++ joinL ['\n'] Dd))) := by
    rw [joinL_append ['\n'] Td _ hT (by simp), j2]
  have hmem : ∀ p ∈ Td ++ ([[]] ++ (splitlinesL Hd ++ ([[]] ++ Dd))), '\n' ∉ p := by
    intro p hp
    rcases List.mem_append.1 hp with h | h
    · exact hTn p h
    rcases List.mem_append.1 h with h | h
    · rw [List.mem_singleton.1 h]; exact List.not_mem_nil _
    rcases List.mem_append.1 h with h | h
    · exact mem_splitlinesL_no_nl h
    rcases List.mem_append.1 h with h | h
    · rw [List.mem_singleton.1 h]; exact List.not_mem_nil _
    · exact hDn p h
  have hmain := @splitlinesL_joinL
    (Td ++ ([[]] ++ (splitlinesL Hd ++ ([[]] ++ Dd))))
    (by simp [hT]) hmem
  rw [hL]
  rw [← hmain, j1]
  congr 1
  rw [hexp]
  simp [List.append_assoc]

theorem spliceReadme_eq_of_markers (content help : String) {b e : Nat}
    (hm : findMarkers (readmeLines content) = (some b, some e)) :
    spliceReadme content help =
      (0, joinS "\n" [joinS "\n" ((readmeLines content).take (b + 1)), "", help, "",
                      joinS "\n" ((readmeLines content).drop e), ""]) := by
  simp only [spliceReadme, hm]

theorem markers_bounds {ls : List String} {b e : Nat}
    (hm : findMarkers ls = (some b, some e)) : b < e ∧ e < ls.length := by
  rw [findMarkers_eq_spec_markers] at hm
  have h1 : specBegin ls = some b := congrArg Prod.fst hm
  have h2 : specEnd ls = some e := congrArg Prod.snd hm
  rw [specEnd, h1] at h2
  have hb : b < ls.length := by
    have := @firstIdxFrom_lt isUsageHeader ls 0 b h1
    omega
  have he1 : b + 1 ≤ e := firstIdxFrom_le h2
  have he2 : e < (b + 1) + (ls.drop (b + 1)).length := firstIdxFrom_lt h2
  rw [List.length_drop] at he2
  constructor
  · omega
  · omega

theorem markers_structure {ls : List String} {b e : Nat}
    (hm : findMarkers ls = (some b, some e)) :
    ∃ pre lb mid le suf,
      ls = (pre ++ [lb]) ++ (mid ++ le :: suf) ∧
      pre.length = b ∧ b + 1 + mid.length = e ∧
      (∀ y ∈ pre, isUsageHeader y = false) ∧ isUsageHeader lb = true ∧
      (∀ y ∈ mid, isHeaderLine y = false) ∧ isHeaderLine le = true ∧
      ls.take (b + 1) = pre ++ [lb] ∧ ls.drop e = le :: suf := by
  rw [findMarkers_eq_spec_markers] at hm
  have h1 : specBegin ls = some b := congrArg Prod.fst hm
  have h2 : specEnd ls = some e := congrArg Prod.snd hm
  rw [specEnd, h1] at h2
  rw [specBegin, firstIdxFrom_some_iff] at h1
  obtain ⟨pre, lb, rest, hls, hb, hpre, hlb⟩ := h1
  have hlenpre : (pre ++ [lb]).length = b + 1 := by
    simp [List.length_append]
    omega
  have hrest : ls.drop (b + 1) = rest := by
    rw [hls, show pre ++ lb :: rest = (pre ++ [lb]) ++ rest by simp]
    exact List.drop_left' hlenpre
  have h2' : firstIdxFrom isHeaderLine (b + 1) (ls.drop (b + 1)) = some e := h2
  rw [hrest, firstIdxFrom_some_iff] at h2'
  obtain ⟨mid, le, suf, hrest2, he, hmid, hle⟩ := h2'
  refine ⟨pre, lb, mid, le, suf, ?_, by omega, by omega, hpre, hlb, hmid, hle, ?_, ?_⟩
  · rw [hls, hrest2]
    simp
  · rw [hls, show pre ++ lb :: rest = (pre ++ [lb]) ++ rest by simp]
    rw [List.take_left' hlenpre]
  · have hlen2 : ((pre ++ [lb]) ++ mid).length = e := by
      simp [List.length_append]
      omega
    rw [hls, hrest2,
      show pre ++ lb :: (mid ++ le :: suf) = ((pre ++ [lb]) ++ mid) ++ le :: suf by simp]
    exact List.drop_left' hlen2

theorem splice_out_decomp (content help : String) {b e : Nat}
    (hm : findMarkers (readmeLines content) = (some b, some e))
    (hne : help ≠ "") (hnl : help.data.getLast? ≠ some '\n') :
    pySplitlines (joinS "\n" [joinS "\n" ((readmeLines content).take (b + 1)), "", help, "",
        joinS "\n" ((readmeLines content).drop e), ""]) =
      (readmeLines content).take (b + 1) ++ [""] ++ pySplitlines help ++ [""] ++
        (readmeLines content).drop e := by
  obtain ⟨hbe, hlen⟩ := markers_bounds hm
  have hTne : (readmeLines content).take (b + 1) ≠ [] := by
    rw [Ne, List.take_eq_nil_iff]
    push_neg
    refine ⟨by omega, ?_⟩
    intro h
    rw [h] at hlen
    simp at hlen
  have hDne : (readmeLines content).drop e ≠ [] := by
    intro h
    rw [List.drop_eq_nil_iff] at h
    omega
  have hHd : help.data ≠ [] := (string_ne_empty_iff help).1 hne
  have hTn : ∀ p ∈ ((readmeLines content).take (b + 1)).map String.data, '\n' ∉ p := by
    intro p hp
    obtain ⟨x, hx, rfl⟩ := List.mem_map.1 hp
    exact readmeLines_no_nl content x (List.take_subset _ _ hx)
  have hDn : ∀ p ∈ ((readmeLines content).drop e).map String.data, '\n' ∉ p := by
    intro p hp
    obtain ⟨x, hx, rfl⟩ := List.mem_map.1 hp
    exact readmeLines_no_nl content x (List.drop_subset _ _ hx)
  have hmain := splitlinesL_reassembly (((readmeLines content).take (b + 1)).map String.data)
      (((readmeLines content).drop e).map String.data) help.data
      (by simpa using hTne) (by simpa using hDne) hHd hnl hTn hDn
  have hdata : (joinS "\n" [joinS "\n" ((readmeLines content).take (b + 1)), "", help, "",
      joinS "\n" ((readmeLines content).drop e), ""]).data =
      joinL ['\n'] [joinL ['\n'] (((readmeLines content).take (b + 1)).map String.data),
        [], help.data, [],
        joinL ['\n'] (((readmeLines content).drop e).map String.data), []] := rfl
  rw [pySplitlines, hdata, hmain]
  simp only [List.map_append]
  rw [map_mk_map_data, map_mk_map_data]
  rfl

theorem splice_out_ends_nl (content help : String) {b e : Nat} :
    (joinS "\n" [joinS "\n" ((readmeLines content).take (b + 1)), "", help, "",
        joinS "\n" ((readmeLines content).drop e), ""]).data.getLast? = some '\n' := by
  have hdata : (joinS "\n" [joinS "\n" ((readmeLines content).take (b + 1)), "", help, "",
      joinS "\n" ((readmeLines content).drop e), ""]).data =
      joinL ['\n'] (((readmeLines content).take (b + 1)).map String.data) ++ ['\n'] ++
        ([] ++ ['\n'] ++ (help.data ++ ['\n'] ++
          ([] ++ ['\n'] ++
            (joinL ['\n'] (((readmeLines content).drop e).map String.data) ++ ['\n'] ++
              [])))) := rfl
  rw [hdata]
  have hconc : joinL ['\n'] (((readmeLines content).take (b + 1)).map String.data) ++ ['\n'] ++
      ([] ++ ['\n'] ++ (help.data ++ ['\n'] ++
        ([] ++ ['\n'] ++
          (joinL ['\n'] (((readmeLines content).drop e).map String.data) ++ ['\n'] ++ [])))) =
      (joinL ['\n'] (((readmeLines content).take (b + 1)).map String.data) ++ ['\n'] ++
        ([] ++ ['\n'] ++ (help.data ++ ['\n'] ++
          ([] ++ ['\n'] ++
            joinL ['\n'] (((readmeLines content).drop e).map String.data))))) ++ ['\n'] := by
    simp [List.append_assoc]
  rw [hconc]
  exact List.getLast?_concat _

/-!
Claim theorems for the splice: C1, C7, C3.
-/

/-- C1: for every target document in which the begin marker or the end marker
is not found, the splice returns exit code 2 and the document content after
the failed attempt equals the content read before it — the write is never
executed, so no partial write occurs. -/
theorem C1_splice_abort_unchanged (content help : String)
    (h : (findMarkers (readmeLines content)).1 = none ∨
         (findMarkers (readmeLines content)).2 = none) :
    spliceReadme content help = (2, content) := by
  rcases hfm : findMarkers (readmeLines content) with ⟨bo, eo⟩
  rw [hfm] at h
  cases bo with
  | none => simp [spliceReadme, hfm]
  | some b =>
    cases eo with
    | none => simp [spliceReadme, hfm]
    | some e =>
      rcases h with h | h <;> simp at h

/-- Witness for C1: a document whose only header line is the usage header (no
closing header), so the end marker is missing; the splice aborts with exit
code 2 and the content is unchanged. -/
theorem C1_splice_abort_unchanged_witness :
    spliceReadme "Intro\n# Usage\nstuff" "    rh [--x]" = (2, "Intro\n# Usage\nstuff") :=
  C1_splice_abort_unchanged "Intro\n# Usage\nstuff" "    rh [--x]" (Or.inr (by decide))

/-- C7: when both markers are found, the rewritten document splits into
exactly the read lines `0..begin` (inclusive) verbatim, a blank line, the
help block's lines, a blank line, and the read lines from `end` on verbatim,
and the rewritten document ends with a newline. -/
theorem C7_splice_structure (content help : String) (b e : Nat)
    (hm : findMarkers (readmeLines content) = (some b, some e))
    (hne : help ≠ "") (hnl : help.data.getLast? ≠ some '\n') :
    ∃ out, spliceReadme content help = (0, out) ∧
      pySplitlines out = (readmeLines content).take (b + 1) ++ [""] ++
        pySplitlines help ++ [""] ++ (readmeLines content).drop e ∧
      out.data.getLast? = some '\n' := by
  refine ⟨_, spliceReadme_eq_of_markers content help hm, ?_, ?_⟩
  · exact splice_out_decomp content help hm hne hnl
  · exact splice_out_ends_nl (b := b) (e := e) content help

/-- Witness for C7 at a concrete document with prose before and after the
usage section. -/
theorem C7_splice_structure_witness :
    ∃ out, spliceReadme "Intro\n# Usage\nold stuff\n# Next\ntail" "    rh [--x]" = (0, out) ∧
      pySplitlines out =
        (readmeLines "Intro\n# Usage\nold stuff\n# Next\ntail").take 2 ++ [""] ++
          pySplitlines "    rh [--x]" ++ [""] ++
          (readmeLines "Intro\n# Usage\nold stuff\n# Next\ntail").drop 3 ∧
      out.data.getLast? = some '\n' :=
  C7_splice_structure "Intro\n# Usage\nold stuff\n# Next\ntail" "    rh [--x]" 1 3
    (by decide) (by decide) (by decide)

/-- C3 counterexample: in the document `["  # Usage", "text", "# Second"]`
the first line's first non-space character is `'#'` and the line contains the
usage title, and `"# Second"` is a later header line, so under the claim the
markers `begin = 0` and `end = 2` would be found; the scan finds neither,
because `"  # Usage"` does not start with `'#'` at its very first
character. -/
theorem C3_markers_cex :
    (pyLstrip "  # Usage").data.head? = some '#' ∧
    pyIn "# Usage" "  # Usage" = true ∧
    startsWithS "# Second" "#" = true ∧
    findMarkers ["  # Usage", "text", "# Second"] = (none, none) := by
  decide

/-- C3 amended: a document line is a header boundary candidate if and only if
its very first character is `'#'` (leading whitespace disqualifies it);
`begin` is the first candidate containing `"# Usage"` and `end` is the first
candidate strictly after `begin` — the scan equals this specification. -/
theorem C3_markers_spec (ls : List String) :
    findMarkers ls = (specBegin ls, specEnd ls) :=
  findMarkers_eq_spec_markers ls

/-!
Claim C4: idempotence of the splice.
-/

theorem map_pyRstrip_stable {ls : List String} (h : ∀ x ∈ ls, pyRstrip x = x) :
    ls.map pyRstrip = ls := by
  induction ls with
  | nil => rfl
  | cons x xs ih =>
    rw [List.map_cons, h x (List.mem_cons_self x xs),
      ih (fun y hy => h y (List.mem_cons_of_mem x hy))]

/-- C4 counterexample: the document already contains exactly the normalized
help block `"    rh [--x]"` between the two markers (with the surrounding
blank lines the splice produces), both markers are found, yet re-splicing the
same block does not give a byte-identical document, because the read strips
the trailing whitespace of the prose line `"x "` outside the block. -/
theorem C4_splice_cex :
    spliceReadme "x \n# Usage\n\n    rh [--x]\n\n# End\n" "    rh [--x]" =
      (0, "x\n# Usage\n\n    rh [--x]\n\n# End\n") ∧
    ("x\n# Usage\n\n    rh [--x]\n\n# End\n" : String) ≠
      "x \n# Usage\n\n    rh [--x]\n\n# End\n" := by
  decide

/-- C4 amended: the splice is idempotent on its own output: if a run of the
splice produced the document `out` from some document with the help block
`help` (a nonempty block whose lines do not start with `'#'` and which does
not end in a newline — true of every block the normalizer emits), then
splicing the same block into `out` yields `out` again, byte for byte. -/
theorem C4_splice_idempotent (content help out : String)
    (hrun : spliceReadme content help = (0, out))
    (hne : help ≠ "") (hnl : help.data.getLast? ≠ some '\n')
    (hhash : ∀ p ∈ pySplitlines help, p.data.head? ≠ some '#') :
    spliceReadme out help = (0, out) := by
  rcases hfm : findMarkers (readmeLines content) with ⟨bo, eo⟩
  cases bo with
  | none => exfalso; simp [spliceReadme, hfm] at hrun
  | some b =>
  cases eo with
  | none => exfalso; simp [spliceReadme, hfm] at hrun
  | some e =>
  have heq := spliceReadme_eq_of_markers content help hfm
  rw [heq] at hrun
  have hout : joinS "\n" [joinS "\n" ((readmeLines content).take (b + 1)), "", help, "",
      joinS "\n" ((readmeLines content).drop e), ""] = out := congrArg Prod.snd hrun
  obtain ⟨pre, lb, mid, le, suf, hls, hpreb, hmide, hpreF, hlbT, hmidF, hleT, htake, hdrop⟩ :=
    markers_structure hfm
  have hrs : ∀ x ∈ (readmeLines content).take (b + 1), pyRstrip x = x :=
    fun x hx => readmeLines_rstrip_stable content x (List.take_subset _ _ hx)
  have hrs2 : ∀ x ∈ (readmeLines content).drop e, pyRstrip x = x :=
    fun x hx => readmeLines_rstrip_stable content x (List.drop_subset _ _ hx)
  have hlines2 : readmeLines out =
      (readmeLines content).take (b + 1) ++ [""] ++
        (pySplitlines help).map pyRstrip ++ [""] ++ (readmeLines content).drop e := by
    rw [← hout, readmeLines, splice_out_decomp content help hfm hne hnl]
    simp only [List.map_append]
    rw [map_pyRstrip_stable hrs, map_pyRstrip_stable hrs2]
    rfl
  set H2 := (pySplitlines help).map pyRstrip with hH2def
  have hH2F : ∀ y ∈ H2, isHeaderLine y = false := by
    intro y hy
    rw [hH2def] at hy
    obtain ⟨p, hp, rfl⟩ := List.mem_map.1 hy
    cases hih : isHeaderLine (pyRstrip p) with
    | false => rfl
    | true =>
      exfalso
      have h1 : (['#'] : List Char).isPrefixOf (rstripL p.data) = true := hih
      exact hhash p hp (head?_rstripL ((startsHash_iff _).1 h1))
  have hSB : specBegin (readmeLines out) = some b := by
    show firstIdxFrom isUsageHeader 0 (readmeLines out) = some b
    rw [firstIdxFrom_some_iff]
    refine ⟨pre, lb, [""] ++ H2 ++ [""] ++ (readmeLines content).drop e, ?_, by omega,
      hpreF, hlbT⟩
    rw [hlines2, htake]
    simp [List.append_assoc]
  have hTlen : ((readmeLines content).take (b + 1)).length = b + 1 := by
    rw [htake]
    simp [hpreb]
  have hdropb : (readmeLines out).drop (b + 1) =
      [""] ++ H2 ++ [""] ++ (readmeLines content).drop e := by
    rw [hlines2]
    rw [show (readmeLines content).take (b + 1) ++ [""] ++ H2 ++ [""] ++
          (readmeLines content).drop e =
        (readmeLines content).take (b + 1) ++
          ([""] ++ H2 ++ [""] ++ (readmeLines content).drop e) by
      simp [List.append_assoc]]
    exact List.drop_left' hTlen
  have hSE : specEnd (readmeLines out) = some (b + 1 + (H2.length + 2)) := by
    rw [specEnd, hSB]
    show firstIdxFrom isHeaderLine (b + 1) ((readmeLines out).drop (b + 1)) =
      some (b + 1 + (H2.length + 2))
    rw [hdropb, hdrop, firstIdxFrom_some_iff]
    refine ⟨[""] ++ H2 ++ [""], le, suf, ?_, ?_, ?_, hleT⟩
    · simp [List.append_assoc]
    · simp only [List.length_append, List.length_singleton]
      omega
    · intro y hy
      rcases List.mem_append.1 hy with hy | hy
      · rcases List.mem_append.1 hy with hy | hy
        · rw [List.mem_singleton.1 hy]; rfl
        · exact hH2F y hy
      · rw [List.mem_singleton.1 hy]; rfl
  have hm2 : findMarkers (readmeLines out) = (some b, some (b + 1 + (H2.length + 2))) := by
    rw [findMarkers_eq_spec_markers, hSB, hSE]
  have heq2 := spliceReadme_eq_of_markers out help hm2
  rw [heq2]
  have htake2 : (readmeLines out).take (b + 1) = (readmeLines content).take (b + 1) := by
    rw [hlines2]
    rw [show (readmeLines content).take (b + 1) ++ [""] ++ H2 ++ [""] ++
          (readmeLines content).drop e =
        (readmeLines content).take (b + 1) ++
          ([""] ++ H2 ++ [""] ++ (readmeLines content).drop e) by
      simp [List.append_assoc]]
    exact List.take_left' hTlen
  have hdropE2 : (readmeLines out).drop (b + 1 + (H2.length + 2)) =
      (readmeLines content).drop e := by
    rw [hlines2, hdrop]
    have hlen : ((readmeLines content).take (b + 1) ++ [""] ++ H2 ++ [""]).length =
        b + 1 + (H2.length + 2) := by
      simp only [List.length_append, List.length_singleton, hTlen]
      omega
    rw [show (readmeLines content).take (b + 1) ++ [""] ++ H2 ++ [""] ++ le :: suf =
        ((readmeLines content).take (b + 1) ++ [""] ++ H2 ++ [""]) ++ le :: suf by
      simp [List.append_assoc]]
    exact List.drop_left' hlen
  rw [htake2, hdropE2, hout]

/-- Witness for C4: splicing the block `"    rh [--x]"` into a concrete
document and then re-splicing the same block reproduces the output byte for
byte. -/
theorem C4_splice_idempotent_witness :
    spliceReadme "Intro\n# Usage\n\n    rh [--x]\n\n# Next\ntail\n" "    rh [--x]" =
      (0, "Intro\n# Usage\n\n    rh [--x]\n\n# Next\ntail\n") :=
  C4_splice_idempotent "Intro\n# Usage\nold stuff\n# Next\ntail"
    "    rh [--x]" "Intro\n# Usage\n\n    rh [--x]\n\n# Next\ntail\n"
    (by decide) (by decide) (by decide) (by decide)

/-!
Claims C10, C5, C8 and C6.
-/

/-- C10: normalization requires the precondition that some line of the raw
help text starts with `USAGE`: on any help text in which no line does, the
preamble-stripping loop exhausts the list and the subsequent line-0 access
fails (modelled as `none`) instead of returning a result. -/
theorem C10_normalize_requires_usage (stdout : String)
    (h : ∀ l ∈ helpInitialLines stdout, startsWithS l "USAGE" = false) :
    normalizeHelpLines stdout = none := by
  have hdw : (helpInitialLines stdout).dropWhile (fun l => !(startsWithS l "USAGE")) = [] := by
    rw [List.dropWhile_eq_nil_iff]
    intro x hx
    simp [h x hx]
  simp [normalizeHelpLines, normalizeLines, hdw]

/-- Witness for C10 at a help text with no `USAGE` line. -/
theorem C10_normalize_requires_usage_witness :
    normalizeHelpLines "rush -- the shell helper\nrun it for details" = none :=
  C10_normalize_requires_usage "rush -- the shell helper\nrun it for details" (by decide)

/-- C5: a description line after the synopsis is kept if and only if it
either does not contain `"--"` at all or some flag token extracted from the
synopsis is a substring of it; in particular, with synopsis flags
`{--a, --b}`, a line mentioning only `--c` is dropped and lines mentioning
`--a` or no flag-like text are retained. -/
theorem C5_flag_filter :
    (∀ (syn : String) (descs : List String) (l : String),
      l ∈ descs.filter (keepLine (extractFlags syn)) ↔
        l ∈ descs ∧ (pyIn "--" l = true → ∃ f ∈ extractFlags syn, pyIn f l = true)) ∧
    extractFlags "rush [--a] [--b]" = ["--a", "--b"] ∧
    ["uses --c only", "uses --a here", "plain text"].filter
      (keepLine (extractFlags "rush [--a] [--b]")) = ["uses --a here", "plain text"] := by
  refine ⟨?_, by decide, by decide⟩
  intro syn descs l
  constructor
  · intro h
    have h' := List.mem_filter.1 h
    refine ⟨h'.1, fun hdd => ?_⟩
    have hk := h'.2
    rw [keepLine, hdd] at hk
    simp only [Bool.not_true, Bool.false_or, List.any_eq_true] at hk
    exact hk
  · rintro ⟨hl, himp⟩
    refine List.mem_filter.2 ⟨hl, ?_⟩
    rw [keepLine]
    cases hdd : pyIn "--" l with
    | false => simp
    | true =>
      simp only [Bool.not_true, Bool.false_or, List.any_eq_true]
      exact himp hdd

theorem startsHash_eq_head (l : List Char) :
    (['#'] : List Char).isPrefixOf l = (l.head? == some '#') := by
  cases hp : (['#'] : List Char).isPrefixOf l with
  | false =>
    symm
    rw [beq_eq_false_iff_ne]
    intro h
    rw [(startsHash_iff l).2 h] at hp
    cases hp
  | true =>
    symm
    rw [beq_iff_eq]
    exact (startsHash_iff l).1 hp

/-- C8: a line of the ignore-pattern file is kept (as its right-stripped
text) if and only if, after trimming whitespace, it is non-empty and does not
begin with the comment marker `'#'`; the example file
`["# comment", "", "*.log"]` yields exactly `["*.log"]`. -/
theorem C8_ignore_filter :
    (∀ ls : List String, docsIgnorePatterns ls =
      (ls.filter (fun l => !(pyStrip l == "") && !(startsWithS (pyStrip l) "#"))).map
        pyRstrip) ∧
    docsIgnorePatterns ["# comment", "", "*.log"] = ["*.log"] := by
  refine ⟨?_, by decide⟩
  intro ls
  rw [docsIgnorePatterns]
  congr 1
  apply List.filter_congr
  intro l _
  cases hs : (pyStrip l == "") with
  | true => simp
  | false =>
    have hne : stripL l.data ≠ [] := by
      intro h
      have hempty : pyStrip l = "" := by
        show (⟨stripL l.data⟩ : String) = ""
        rw [h]
      rw [hempty] at hs
      simp at hs
    have hhd : (stripL l.data).head? = (lstripL l.data).head? := head?_stripL hne
    have e1 : startsWithS (pyLstrip l) "#" = ((lstripL l.data).head? == some '#') :=
      startsHash_eq_head (lstripL l.data)
    have e2 : startsWithS (pyStrip l) "#" = ((stripL l.data).head? == some '#') :=
      startsHash_eq_head (stripL l.data)
    rw [e1, e2, hhd]

/-- C6 counterexample: in the raw help output `"USAGE \nx"` the first line
entering the later normalization steps is `"USAGE "`, which still carries its
trailing space — only the whole text is stripped, not each line. -/
theorem C6_trailing_ws_cex :
    helpInitialLines "USAGE \nx" = ["USAGE ", "x"] ∧ pyRstrip "USAGE " ≠ "USAGE " := by
  decide

/-- C6 amended: step 1 trims whitespace only at both ends of the whole raw
text before splitting into lines, so the last line entering steps 2-7 carries
no trailing whitespace, while interior lines may retain theirs. -/
theorem C6_last_line_stripped (raw : String) (l : String)
    (h : (helpInitialLines raw).getLast? = some l) : pyRstrip l = l := by
  rw [helpInitialLines, pySplitlines, List.getLast?_map] at h
  cases hsp : (splitlinesL (pyStrip raw).data).getLast? with
  | none => rw [hsp] at h; cases h
  | some p =>
    rw [hsp] at h
    have hl : l = ⟨p⟩ := by simpa using h.symm
    subst hl
    by_cases hnil : stripL raw.data = []
    · have hz : (pyStrip raw).data = ([] : List Char) := hnil
      rw [hz] at hsp
      simp [splitlinesL] at hsp
    · obtain ⟨c, hc⟩ : ∃ c, (stripL raw.data).getLast? = some c := by
        cases hg : (stripL raw.data).getLast? with
        | none => exact absurd (List.getLast?_eq_none_iff.1 hg) hnil
        | some c => exact ⟨c, rfl⟩
      have hcs : isPySpace c = false := getLast?_stripL_not_space hc
      have hcn : (stripL raw.data).getLast? ≠ some '\n' := by
        rw [hc]
        intro hh
        have hcnl : c = '\n' := by simpa using hh
        rw [hcnl] at hcs
        exact absurd hcs (by decide)
      have hpl := getLast?_splitlinesL (stripL raw.data) p hcn (by exact hsp)
      have hstable : rstripL p = p := rstripL_eq_self (by rw [hpl, hc]) hcs
      show (⟨rstripL p⟩ : String) = ⟨p⟩
      rw [hstable]

/-- Witness for C6 amended: the last line of a concrete help text is already
right-stripped. -/
theorem C6_last_line_stripped_witness : pyRstrip "x" = "x" :=
  C6_last_line_stripped "USAGE \nx" "x" (by decide)

/-!
Claim C2: the preamble is discarded and the first output line comes from the
synopsis.
-/

theorem splitBrSp_ne_nil : ∀ l, splitBrSp l ≠ [] := by
  intro l
  induction l using splitBrSp.induct with
  | case1 => simp [splitBrSp]
  | case2 rest ih => simp [splitBrSp]
  | case3 c rest h hnil ih => exact absurd hnil ih
  | case4 c rest h p ps hps ih =>
    rw [splitBrSp.eq_def]
    split
    · next heq => exact absurd heq (by simp)
    · next rest1 heq =>
      injection heq with hc hrest
      exact (h rest1 hc hrest).elim
    · next cc cls hnm heq =>
      injection heq with he1 he2
      subst he1
      subst he2
      rw [hps]
      simp

theorem splitBrSp_singleton : ∀ (l x : List Char), splitBrSp l = [x] → x = l := by
  intro l
  induction l using splitBrSp.induct with
  | case1 =>
    intro x h
    simp [splitBrSp] at h
    exact h
  | case2 rest ih =>
    intro x h
    simp only [splitBrSp] at h
    injection h with h1 h2
    exact absurd h2 (splitBrSp_ne_nil rest)
  | case3 c rest h hnil ih => exact absurd hnil (splitBrSp_ne_nil rest)
  | case4 c rest h p ps hps ih =>
    intro x hx
    rw [splitBrSp.eq_def] at hx
    split at hx
    · next heq => exact absurd heq (by simp)
    · next rest1 heq =>
      injection heq with hc hrest
      exact (h rest1 hc hrest).elim
    · next cc cls hnm heq =>
      injection heq with he1 he2
      subst he1
      subst he2
      rw [hps] at hx
      injection hx with h1 h2
      subst h2
      rw [← h1, ih p (by rw [hps])]

theorem replaceRush_ne_nil : ∀ {l : List Char}, l ≠ [] → replaceRush l ≠ [] := by
  intro l hl
  induction l using replaceRush.induct with
  | case1 rest ih => simp [replaceRush]
  | case2 c rest h ih =>
    rw [replaceRush.eq_def]
    split
    · next rest1 heq =>
      injection heq with hc hrest
      exact (h rest1 hc hrest).elim
    · next cc cls hnm heq =>
      injection heq with he1 he2
      subst he1
      subst he2
      simp
    · next heq => exact absurd heq (by simp)
  | case3 => exact absurd rfl hl

theorem reformatSynopsis_ne_nil {syn : String} (h : pyStrip syn ≠ "") :
    ∃ first rest, reformatSynopsis syn = first :: rest := by
  have hd : stripL syn.data ≠ [] := by
    intro hh
    refine h ?_
    show (⟨stripL syn.data⟩ : String) = ""
    rw [hh]
  have hjoin : joinL "]\n    ".data (splitBrSp (stripL syn.data)) ≠ [] := by
    cases hsp : splitBrSp (stripL syn.data) with
    | nil => exact absurd hsp (splitBrSp_ne_nil _)
    | cons p ps =>
      cases ps with
      | nil =>
        have hp : p = stripL syn.data := splitBrSp_singleton _ p hsp
        simpa [joinL, hp] using hd
      | cons q qs =>
        rw [joinL_cons_cons]
        intro hh
        rw [List.append_assoc] at hh
        have h1 := List.append_eq_nil.1 hh
        have h2 := List.append_eq_nil.1 h1.2
        exact absurd h2.1 (by decide)
  have hrr := replaceRush_ne_nil hjoin
  cases hx : splitlinesL (replaceRush (joinL "]\n    ".data (splitBrSp (stripL syn.data)))) with
  | nil => exact absurd hx (splitlinesL_ne_nil hrr)
  | cons a as =>
    refine ⟨⟨a⟩, as.map String.mk, ?_⟩
    show (splitlinesL (replaceRush (joinL "]\n    ".data
      (splitBrSp (pyStrip syn).data)))).map String.mk = _
    rw [show (pyStrip syn).data = stripL syn.data from rfl, hx]
    rfl

/-- C2 counterexample: on the raw help text
`"about\n    x]\nUSAGE:\nx] foo"` the preamble (the lines before the `USAGE`
line) is `["about", "    x]"]`, and the normalization output contains the
line `"    x]"` — a line of the preamble textually appears in the output,
produced there by the reformatting of the synopsis `"x] foo"`. -/
theorem C2_preamble_cex :
    (helpInitialLines "about\n    x]\nUSAGE:\nx] foo").takeWhile
        (fun l => !(startsWithS l "USAGE")) = ["about", "    x]"] ∧
    normalizeHelpLines "about\n    x]\nUSAGE:\nx] foo" = some ["    x]", "        foo"] ∧
    "    x]" ∈ (["about", "    x]"] : List String) := by
  decide

/-- C2 amended: for a raw help text consisting of a preamble (no line of
which starts with `USAGE`), the `USAGE` header, a non-blank synopsis and
description lines, the normalization output is computed solely from the lines
after the `USAGE` header (every preamble line is discarded, though a retained
line may coincidentally carry the same text), and the first output line is
the four-space-indented first line of the reformatted synopsis. -/
theorem C2_normalize_preamble (raw : String) (pre : List String) (usage syn : String)
    (descs : List String)
    (hsplit : helpInitialLines raw = pre ++ usage :: syn :: descs)
    (hpre : ∀ l ∈ pre, startsWithS l "USAGE" = false)
    (husage : startsWithS usage "USAGE" = true)
    (hsyn : pyStrip syn ≠ "") :
    normalizeHelpLines raw = (normalizeLines (usage :: syn :: descs)).map indentHelp ∧
    ∃ first rest out, reformatSynopsis syn = first :: rest ∧
      normalizeHelpLines raw = some out ∧ out.head? = some ("    " ++ first) := by
  have hdw : (pre ++ usage :: syn :: descs).dropWhile (fun l => !(startsWithS l "USAGE")) =
      usage :: syn :: descs := by
    rw [List.dropWhile_append_of_pos (by intro a ha; simp [hpre a ha])]
    rw [List.dropWhile_cons_of_neg (by simp [husage])]
  have h1 : normalizeLines (pre ++ usage :: syn :: descs) =
      some (reformatSynopsis syn ++ descs.filter (keepLine (extractFlags syn))) := by
    simp only [normalizeLines, hdw]
  have h2 : normalizeLines (usage :: syn :: descs) =
      some (reformatSynopsis syn ++ descs.filter (keepLine (extractFlags syn))) := by
    simp only [normalizeLines]
    rw [List.dropWhile_cons_of_neg (by simp [husage])]
  have hmain : normalizeHelpLines raw =
      some (indentHelp (reformatSynopsis syn ++
        descs.filter (keepLine (extractFlags syn)))) := by
    simp only [normalizeHelpLines]
    rw [hsplit, h1]
    rfl
  obtain ⟨first, rest, href⟩ := reformatSynopsis_ne_nil hsyn
  refine ⟨?_, first, rest, _, href, hmain, ?_⟩
  · simp only [normalizeHelpLines]
    rw [hsplit, h1, h2]
  · rw [href]
    simp [indentHelp]

/-- Witness for C2 amended at a concrete help text with an about preamble. -/
theorem C2_normalize_preamble_witness :
    normalizeHelpLines "About rush helper\nUSAGE:\nrush [--verbose]\n  --verbose  more" =
      (normalizeLines ["USAGE:", "rush [--verbose]", "  --verbose  more"]).map indentHelp ∧
    ∃ first rest out, reformatSynopsis "rush [--verbose]" = first :: rest ∧
      normalizeHelpLines "About rush helper\nUSAGE:\nrush [--verbose]\n  --verbose  more" =
        some out ∧
      out.head? = some ("    " ++ first) :=
  C2_normalize_preamble "About rush helper\nUSAGE:\nrush [--verbose]\n  --verbose  more"
    ["About rush helper"] "USAGE:" "rush [--verbose]" ["  --verbose  more"]
    (by decide) (by decide) (by decide) (by decide)

/-!
Claim C9: the ignore-pattern purge deletes every match.
-/

theorem mem_deletePath {fs : List FsEntry} {m x : FsEntry} :
    x ∈ deletePath fs m ↔ x ∈ fs ∧
      (if m.isDir then m.path.isPrefixOf x.path else m.path == x.path) = false := by
  rw [deletePath]
  by_cases hd : m.isDir
  · simp [hd, List.mem_filter]
  · simp [hd, List.mem_filter]

theorem mem_foldl_deletePath : ∀ (ms fs : List FsEntry) (x : FsEntry),
    x ∈ ms.foldl deletePath fs →
    x ∈ fs ∧ ∀ m ∈ ms,
      (if m.isDir then m.path.isPrefixOf x.path else m.path == x.path) = false := by
  intro ms
  induction ms with
  | nil => intro fs x hx; exact ⟨hx, by simp⟩
  | cons m ms ih =>
    intro fs x hx
    rw [List.foldl_cons] at hx
    obtain ⟨hx1, hx2⟩ := ih _ x hx
    obtain ⟨hx3, hx4⟩ := mem_deletePath.1 hx1
    refine ⟨hx3, ?_⟩
    intro m' hm'
    rcases List.mem_cons.1 hm' with rfl | hm'
    · exact hx4
    · exact hx2 m' hm'

theorem foldl_deletePath_keep : ∀ (ms fs : List FsEntry) (x : FsEntry),
    x ∈ fs →
    (∀ m ∈ ms, (if m.isDir then m.path.isPrefixOf x.path else m.path == x.path) = false) →
    x ∈ ms.foldl deletePath fs := by
  intro ms
  induction ms with
  | nil => intro fs x hx _; exact hx
  | cons m ms ih =>
    intro fs x hx hall
    rw [List.foldl_cons]
    refine ih _ x (mem_deletePath.2 ⟨hx, hall m (List.mem_cons_self m ms)⟩) ?_
    intro m' hm'
    exact hall m' (List.mem_cons_of_mem m hm')

theorem deletePath_sublist (fs : List FsEntry) (m : FsEntry) :
    (deletePath fs m).Sublist fs := by
  rw [deletePath]
  by_cases hd : m.isDir
  · rw [if_pos hd]; exact List.filter_sublist fs
  · rw [if_neg hd]; exact List.filter_sublist fs

theorem foldl_deletePath_sublist : ∀ (ms fs : List FsEntry),
    (ms.foldl deletePath fs).Sublist fs := by
  intro ms
  induction ms with
  | nil => intro fs; exact List.Sublist.refl fs
  | cons m ms ih =>
    intro fs
    rw [List.foldl_cons]
    exact (ih (deletePath fs m)).trans (deletePath_sublist fs m)

theorem purgeOne_sublist (fs : List FsEntry) (pat : String) :
    (purgeOne fs pat).Sublist fs :=
  foldl_deletePath_sublist _ fs

theorem purge_sublist : ∀ (pats : List String) (fs : List FsEntry),
    (purge fs pats).Sublist fs := by
  intro pats
  induction pats with
  | nil => intro fs; exact List.Sublist.refl fs
  | cons q qs ih =>
    intro fs
    exact (ih (purgeOne fs q)).trans (purgeOne_sublist fs q)

theorem not_mem_purgeOne {fs : List FsEntry} {pat : String} {e : FsEntry}
    (he : e ∈ fs) (hm : globMatch pat e.path = true) : e ∉ purgeOne fs pat := by
  intro hmem
  obtain ⟨-, hall⟩ := mem_foldl_deletePath _ _ _ hmem
  have heres : e ∈ resolveGlob fs pat := List.mem_filter.2 ⟨he, hm⟩
  have hcond := hall e heres
  by_cases hd : e.isDir
  · rw [if_pos hd, isPrefixOf_self] at hcond
    cases hcond
  · rw [if_neg hd] at hcond
    simp at hcond

theorem not_mem_purgeOne_under {fs : List FsEntry} {pat : String} {d x : FsEntry}
    (hd : d ∈ fs) (hmatch : globMatch pat d.path = true) (hdir : d.isDir = true)
    (hpfx : d.path.isPrefixOf x.path = true) : x ∉ purgeOne fs pat := by
  intro hmem
  obtain ⟨-, hall⟩ := mem_foldl_deletePath _ _ _ hmem
  have hdres : d ∈ resolveGlob fs pat := List.mem_filter.2 ⟨hd, hmatch⟩
  have hcond := hall d hdres
  rw [if_pos hdir, hpfx] at hcond
  cases hcond

theorem exists_killer_of_deleted {fs : List FsEntry} {pat : String} {e : FsEntry}
    (he : e ∈ fs) (hne : e ∉ purgeOne fs pat) :
    ∃ m ∈ resolveGlob fs pat,
      (if m.isDir then m.path.isPrefixOf e.path else m.path == e.path) = true := by
  by_contra hcon
  push_neg at hcon
  apply hne
  apply foldl_deletePath_keep
  · exact he
  · intro m hm
    have hb := hcon m hm
    cases hv : (if m.isDir then m.path.isPrefixOf e.path else m.path == e.path) with
    | false => rfl
    | true => exact absurd hv hb

theorem purge_not_mem : ∀ (pats : List String) (fs : List FsEntry) (pat : String)
    (e : FsEntry), pat ∈ pats → e ∈ fs → globMatch pat e.path = true →
    e ∉ purge fs pats := by
  intro pats
  induction pats with
  | nil => intro fs pat e hp; cases hp
  | cons q qs ih =>
    intro fs pat e hp he hm hmem
    rcases List.mem_cons.1 hp with rfl | hp
    · exact not_mem_purgeOne he hm ((purge_sublist qs (purgeOne fs pat)).subset hmem)
    · by_cases he2 : e ∈ purgeOne fs q
      · exact ih (purgeOne fs q) pat e hp he2 hm hmem
      · exact he2 ((purge_sublist qs (purgeOne fs q)).subset hmem)

theorem purge_not_mem_under : ∀ (pats : List String) (fs : List FsEntry) (pat : String)
    (d x : FsEntry), (fs.map FsEntry.path).Nodup → pat ∈ pats → d ∈ fs →
    globMatch pat d.path = true → d.isDir = true → x ∈ fs →
    d.path.isPrefixOf x.path = true → x ∉ purge fs pats := by
  intro pats
  induction pats with
  | nil => intro fs pat d x _ hp; cases hp
  | cons q qs ih =>
    intro fs pat d x hnd hp hd hm hdir hx hpfx hmem
    rcases List.mem_cons.1 hp with rfl | hp
    · exact not_mem_purgeOne_under hd hm hdir hpfx
        ((purge_sublist qs (purgeOne fs pat)).subset hmem)
    · have hnd2 : ((purgeOne fs q).map FsEntry.path).Nodup :=
        List.Nodup.sublist (List.Sublist.map _ (purgeOne_sublist fs q)) hnd
      by_cases hd2 : d ∈ purgeOne fs q
      · by_cases hx2 : x ∈ purgeOne fs q
        · exact ih (purgeOne fs q) pat d x hnd2 hp hd2 hm hdir hx2 hpfx hmem
        · exact hx2 ((purge_sublist qs (purgeOne fs q)).subset hmem)
      · obtain ⟨m, hmres, hkill⟩ := exists_killer_of_deleted hd hd2
        have hmfs : m ∈ fs := (List.filter_sublist fs).subset hmres
        have hmmatch : globMatch q m.path = true := (List.mem_filter.1 hmres).2
        by_cases hmd : m.isDir
        · rw [if_pos hmd] at hkill
          have hpx : m.path.isPrefixOf x.path = true := isPrefixOf_trans hkill hpfx
          exact not_mem_purgeOne_under hmfs hmmatch hmd hpx
            ((purge_sublist qs (purgeOne fs q)).subset hmem)
        · rw [if_neg hmd] at hkill
          have hpeq : m.path = d.path := by simpa using hkill
          have hmeq : m = d := List.inj_on_of_nodup_map hnd hmfs hd hpeq
          rw [hmeq] at hmd
          exact absurd hdir hmd

/-- C9: every filesystem entry matched by a retained pattern (at whatever
depth below the output directory the pattern reaches) is deleted by the
purge; when the match is a directory, everything below it is deleted
recursively. -/
theorem C9_purge_deletes_matches (fs : List FsEntry) (pats : List String) (pat : String)
    (e : FsEntry) (hnd : (fs.map FsEntry.path).Nodup) (hpat : pat ∈ pats)
    (he : e ∈ fs) (hm : globMatch pat e.path = true) :
    e ∉ purge fs pats ∧
    (e.isDir = true → ∀ x ∈ fs, e.path.isPrefixOf x.path = true →
      x ∉ purge fs pats) := by
  refine ⟨purge_not_mem pats fs pat e hpat he hm, ?_⟩
  intro hdir x hx hpfx
  exact purge_not_mem_under pats fs pat e x hnd hpat he hm hdir hx hpfx

/-- Witness for C9 on a concrete tree: the pattern `build` deletes the
`build` directory together with the file nested inside it, and the pattern
with a recursive wildcard deletes a match two levels deep. -/
theorem C9_purge_deletes_matches_witness :
    ((⟨["build"], true⟩ : FsEntry) ∉
        purge [⟨["build"], true⟩, ⟨["build", "x.html"], false⟩, ⟨["keep.txt"], false⟩,
          ⟨["a", "b", "c.tmp"], false⟩] ["build", "**/*.tmp"] ∧
      ((⟨["build"], true⟩ : FsEntry).isDir = true →
        ∀ x ∈ [(⟨["build"], true⟩ : FsEntry), ⟨["build", "x.html"], false⟩,
            ⟨["keep.txt"], false⟩, ⟨["a", "b", "c.tmp"], false⟩],
          (["build"] : List String).isPrefixOf x.path = true →
          x ∉ purge [⟨["build"], true⟩, ⟨["build", "x.html"], false⟩, ⟨["keep.txt"], false⟩,
            ⟨["a", "b", "c.tmp"], false⟩] ["build", "**/*.tmp"])) ∧
    (⟨["a", "b", "c.tmp"], false⟩ : FsEntry) ∉
      purge [⟨["build"], true⟩, ⟨["build", "x.html"], false⟩, ⟨["keep.txt"], false⟩,
        ⟨["a", "b", "c.tmp"], false⟩] ["build", "**/*.tmp"] := by
  constructor
  · exact C9_purge_deletes_matches
      [⟨["build"], true⟩, ⟨["build", "x.html"], false⟩, ⟨["keep.txt"], false⟩,
        ⟨["a", "b", "c.tmp"], false⟩]
      ["build", "**/*.tmp"] "build" ⟨["build"], true⟩
      (by decide) (by decide) (by decide) (by decide)
  · exact (C9_purge_deletes_matches
      [⟨["build"], true⟩, ⟨["build", "x.html"], false⟩, ⟨["keep.txt"], false⟩,
        ⟨["a", "b", "c.tmp"], false⟩]
      ["build", "**/*.tmp"] "**/*.tmp" ⟨["a", "b", "c.tmp"], false⟩
      (by decide) (by decide) (by decide) (by decide)).1
